import Mathlib

/-!
Verification of the Quotely server core (src/server/server.js): sentence
segmentation, relevance scoring, context-window selection, the TTL + capacity
bounded PDF content cache, PDF segmentation, and OCR fan-out chunking.

Strings are modelled as lists of characters; JS numbers appearing in scores
are modelled as exact fractions (integer numerator and denominator, compared
by cross multiplication); timestamps are natural-number milliseconds passed
explicitly where the code calls Date.now(). External collaborators (Fuse.js
fuzzy search, cheerio HTML text extraction, the Vision OCR backend) are
modelled as oracle function parameters.
-/

namespace Quotely

/-- Character strings, modelled as lists of characters. -/
abbrev Str := List Char

/-- Whitespace test matching the regex class backslash-s on the inputs that
occur here (space, tab, newline, carriage return, form feed, vertical tab). -/
def isWS (c : Char) : Bool :=
  c = ' ' || c = '\t' || c = '\n' || c = '\r' || c = '\x0c' || c = '\x0b'

/-- Sentence-final punctuation from the split regex in server.js line 287. -/
def isSentEnd (c : Char) : Bool :=
  c = '.' || c = '!' || c = '?'

/-- Lower-case ASCII letters and digits, the class [a-z0-9] of the keyword
tokenizer (server.js line 309). -/
def isLowAlnum (c : Char) : Bool :=
  ('a' ≤ c && c ≤ 'z') || ('0' ≤ c && c ≤ '9')

/-- Letters and digits of either case, the class [a-zA-Z0-9] used for the
local-file cache key (server.js line 671). -/
def isAnyAlnum (c : Char) : Bool :=
  ('a' ≤ c && c ≤ 'z') || ('A' ≤ c && c ≤ 'Z') || ('0' ≤ c && c ≤ '9')

/-! ### Exact fractions standing for JS numbers

Scores in server.js are JS floating point numbers built from small literals;
we model them as exact fractions. All denominators produced by the code are
positive, and comparisons are by cross multiplication. -/

structure Frac where
  num : Int
  den : Int
deriving Repr, DecidableEq

/-- Embed a natural number as a fraction. -/
def fofNat (n : Nat) : Frac := ⟨(n : Int), 1⟩

def fadd (a b : Frac) : Frac := ⟨a.num * b.den + b.num * a.den, a.den * b.den⟩

def fsub (a b : Frac) : Frac := ⟨a.num * b.den - b.num * a.den, a.den * b.den⟩

def fmul (a b : Frac) : Frac := ⟨a.num * b.num, a.den * b.den⟩

def fdiv (a b : Frac) : Frac := ⟨a.num * b.den, a.den * b.num⟩

/-- Cross-multiplication order on fractions (correct for the positive
denominators the pipeline produces). -/
def fle (a b : Frac) : Prop := a.num * b.den ≤ b.num * a.den

def flt (a b : Frac) : Prop := a.num * b.den < b.num * a.den

instance : DecidablePred (fun p : Frac × Frac => fle p.1 p.2) :=
  fun p => inferInstanceAs (Decidable (p.1.num * p.2.den ≤ p.2.num * p.1.den))

instance fleDecidable (a b : Frac) : Decidable (fle a b) :=
  inferInstanceAs (Decidable (a.num * b.den ≤ b.num * a.den))

instance fltDecidable (a b : Frac) : Decidable (flt a b) :=
  inferInstanceAs (Decidable (a.num * b.den < b.num * a.den))

/-- Math.min on fractions. -/
def fmin (a b : Frac) : Frac := if fle a b then a else b

/-- Math.max on fractions. -/
def fmax (a b : Frac) : Frac := if fle a b then b else a

/-! ### Association lists standing for JS Map

The PDF cache and the fuzzy-score lookup are JS Maps; we model them as
association lists in insertion order, with the JS Map operations: get reads
the entry of a key, set updates in place or appends, delete removes. -/

/-- Map.get. -/
def mget {α β : Type} [DecidableEq α] : List (α × β) → α → Option β
  | [], _ => none
  | (k2, v) :: rest, k => if k2 = k then some v else mget rest k

/-- Map.set: update the existing entry in place, else append a new one. -/
def mset {α β : Type} [DecidableEq α] : List (α × β) → α → β → List (α × β)
  | [], k, v => [(k, v)]
  | (k2, v2) :: rest, k, v =>
    if k2 = k then (k, v) :: rest else (k2, v2) :: mset rest k v

/-- Map.delete: remove the entry of a key (keys are unique in a JS Map). -/
def mdel {α β : Type} [DecidableEq α] (m : List (α × β)) (k : α) : List (α × β) :=
  m.filter (fun p => ¬ p.1 = k)

/-- Map.has. -/
def mhas {α β : Type} [DecidableEq α] (m : List (α × β)) (k : α) : Bool :=
  (mget m k).isSome

/-! ### Text normalization (server.js lines 275-283)

The cheerio body-text extraction is an oracle; the code applies it only when
the raw content contains both an opening and a closing angle bracket, then
collapses whitespace runs to single spaces and trims. -/

/-- Character scan of the whitespace-collapse replace: the flag records that
the current whitespace run has already emitted its single space. -/
def collapseAux : Str → Bool → Str
  | [], _ => []
  | c :: rest, inRun =>
    if isWS c then
      if inRun then collapseAux rest true else ' ' :: collapseAux rest true
    else c :: collapseAux rest false

/-- Replace every maximal whitespace run by a single space, the regex
replace of backslash-s-plus with one space. -/
def collapseWS (s : Str) : Str := collapseAux s false

/-- String.prototype.trim. -/
def trimChars (s : Str) : Str :=
  ((s.dropWhile isWS).reverse.dropWhile isWS).reverse

/-- Normalized text content: optional HTML body-text extraction (oracle h,
used only when both angle brackets occur), then whitespace collapse and trim. -/
def normalizeContent (h : Str → Str) (raw : Str) : Str :=
  let t := if '<' ∈ raw ∧ '>' ∈ raw then h raw else raw
  trimChars (collapseWS t)

/-! ### Sentence segmentation (server.js lines 286-289)

The split regex matches a whitespace run directly following sentence-final
punctuation; each resulting unit is trimmed; units of length at most 20 are
dropped. -/

/-- Character scan of the sentence split: acc holds the current unit
reversed, so its head is the previous character; the flag records that the
scan is inside a separator whitespace run (the greedy backslash-s-plus match
after sentence punctuation), whose remaining whitespace is consumed. -/
def splitAux : Str → Str → Bool → List Str
  | [], acc, _ => [acc.reverse]
  | c :: rest, acc, inSep =>
    if inSep then
      if isWS c then splitAux rest acc true
      else splitAux rest [c] false
    else if isWS c ∧ isSentEnd (acc.headD ' ') then
      acc.reverse :: splitAux rest [] true
    else
      splitAux rest (c :: acc) false

/-- Split at whitespace runs that directly follow sentence-final punctuation
(the lookbehind split of server.js line 287). -/
def splitUnits (text : Str) : List Str := splitAux text [] false

/-- The raw units the split produces on a text. -/
def rawUnitsOf (text : Str) : List Str := splitUnits text

/-- The trimmed units, before the length filter. -/
def trimmedUnitsOf (text : Str) : List Str := (rawUnitsOf text).map trimChars

/-- The sentence list: trimmed units of length strictly greater than 20,
indices dense in this filtered sequence. -/
def sentencesOf (text : Str) : List Str :=
  (trimmedUnitsOf text).filter (fun s => 20 < s.length)

/-! ### Relevance scoring (server.js lines 292-339) -/

/-- Character scan collecting maximal alphanumeric runs; cur holds the
current run reversed. -/
def alnumAux : Str → Str → List Str
  | [], cur => if cur.isEmpty then [] else [cur.reverse]
  | c :: rest, cur =>
    if isLowAlnum c then alnumAux rest (c :: cur)
    else if cur.isEmpty then alnumAux rest []
    else cur.reverse :: alnumAux rest []

/-- Maximal runs of lower-case alphanumerics; the split on runs of
non-alphanumerics followed by the removal of empty pieces. -/
def alnumRuns (s : Str) : List Str := alnumAux s []

/-- Topic keywords: lower-case, split on non-alphanumeric runs, keep tokens
of length strictly greater than 2 (server.js lines 307-310). -/
def keywordsOf (topic : Str) : List Str :=
  (alnumRuns (topic.map Char.toLower)).filter (fun w => 2 < w.length)

/-- Whether the needle starts the haystack. -/
def leadsAt : Str → Str → Bool
  | [], _ => true
  | _ :: _, [] => false
  | a :: as, b :: bs => a = b && leadsAt as bs

/-- String.prototype.includes: the needle occurs contiguously in the haystack. -/
def occursIn (needle : Str) : Str → Bool
  | [] => leadsAt needle []
  | c :: rest => leadsAt needle (c :: rest) || occursIn needle rest

/-- One fuzzy search result: the matched sentence and its optional score
(Fuse.js convention, lower score means more similar). -/
abbrev FuzzyResult := Str × Option Frac

/-- The fuzzy-search oracle: given the sentence corpus and the topic, the
search results in order (Fuse construction plus search, server.js 293-298). -/
abbrev FuzzyOracle := List Str → Str → List FuzzyResult

/-- Build the per-sentence fuzzy weight map: convert each score by
one minus min(1, score) (missing score gives 0) and keep the maximum weight
per sentence string (server.js lines 313-318). -/
def fuzzyMapOf : List FuzzyResult → List (Str × Frac) → List (Str × Frac)
  | [], m => m
  | (item, sc) :: rest, m =>
    let w : Frac := match sc with
      | some v => fsub (fofNat 1) (fmin (fofNat 1) v)
      | none => fofNat 0
    let old := (mget m item).getD (fofNat 0)
    fuzzyMapOf rest (mset m item (fmax old w))

/-- A scored sentence, with exactly the fields the code stores
(server.js line 338). -/
structure Scored where
  s : Str
  idx : Nat
  score : Frac
  keywordHits : Nat
  fuzzy : Frac
  exactTopicMatch : Frac
  keywordDensity : Frac
deriving Repr

/-- Score one sentence (server.js lines 321-338). -/
def scoreOne (fmap : List (Str × Frac)) (keywords : List Str) (topicLower : Str)
    (total : Nat) (idx : Nat) (s : Str) : Scored :=
  let lower := s.map Char.toLower
  let keywordHits := keywords.countP (fun k => occursIn k lower)
  let fuzzy := (mget fmap s).getD (fofNat 0)
  let lengthOk : Frac := if 20 ≤ s.length ∧ s.length ≤ 500 then fofNat 1 else ⟨1, 2⟩
  let positionWeight : Frac :=
    fsub (fofNat 1) (fmin ⟨4, 5⟩ (fdiv (fofNat idx) (fofNat (if total = 0 then 1 else total))))
  let exactTopicMatch : Frac := if occursIn topicLower lower then fofNat 2 else fofNat 0
  let keywordDensity : Frac :=
    fmul (fdiv (fofNat keywordHits) (fofNat (max 1 (s.countP (fun c => c = ' ') + 1)))) (fofNat 10)
  let score :=
    fadd (fadd (fadd (fadd (fadd
      (fmul (fofNat keywordHits) (fofNat 2))
      (fmul fuzzy ⟨3, 2⟩))
      (fmul exactTopicMatch (fofNat 3)))
      (fmul keywordDensity (fofNat 1)))
      (fmul lengthOk ⟨3, 10⟩))
      (fmul positionWeight ⟨1, 10⟩)
  ⟨s, idx, score, keywordHits, fuzzy, exactTopicMatch, keywordDensity⟩

/-- The scored list of a corpus: map over sentences with their index. -/
def scoredList (rs : List FuzzyResult) (topic : Str) (sentences : List Str) : List Scored :=
  let fmap := fuzzyMapOf rs []
  let kws := keywordsOf topic
  let tl := topic.map Char.toLower
  sentences.enum.map (fun p => scoreOne fmap kws tl sentences.length p.1 p.2)

/-- Sort comparator of server.js line 351: descending score, stable. -/
def scoreGe (a b : Scored) : Prop := fle b.score a.score

instance : DecidableRel scoreGe := fun a b => fleDecidable b.score a.score

/-- The candidate filter of server.js lines 355-360. -/
def candCond (e : Scored) : Bool :=
  decide (flt (fofNat 0) e.exactTopicMatch) || decide (0 < e.keywordHits) ||
  decide (fle ⟨3, 10⟩ e.fuzzy) || decide (flt ⟨4, 5⟩ e.score)

/-! ### Context-window selection (server.js lines 370-392) -/

/-- Add the predecessor of the candidate when it exists and is new
(server.js lines 379-384). -/
def expandBefore (idx : Nat) (p1 : List Nat) : List Nat :=
  if 1 ≤ idx ∧ ¬ (idx - 1) ∈ p1 then p1 ++ [idx - 1] else p1

/-- Add the successor of the candidate when in bounds and new
(server.js lines 385-388). -/
def expandAfter (n idx : Nat) (p2 : List Nat) : List Nat :=
  if idx + 1 < n ∧ ¬ (idx + 1) ∈ p2 then p2 ++ [idx + 1] else p2

/-- Process one candidate index: select it if new, then its predecessor and
successor when in bounds and not already selected. -/
def expandStep (n : Nat) (picked : List Nat) (idx : Nat) : List Nat :=
  if idx ∈ picked then picked
  else expandAfter n idx (expandBefore idx (picked ++ [idx]))

/-- The loop over all filtered candidates, starting from nothing selected. -/
def expandAll (n : Nat) (cands : List Nat) : List Nat :=
  cands.foldl (expandStep n) []

/-- Ascending sort of the selected indices (server.js line 392). -/
def sortAsc (l : List Nat) : List Nat :=
  List.insertionSort (fun a b => a ≤ b) l

/-! ### The rank pipeline (the whole /api/find-quotes handler up to the
external model call, server.js lines 268-397) -/

/-- The content-length cap applied before any processing (server.js 268). -/
def MAX_CHARS : Nat := 50000

/-- The sentence corpus rank works on: truncate, normalize, segment. -/
def rankSentencesOf (h : Str → Str) (text : Str) : List Str :=
  sentencesOf (normalizeContent h (text.take MAX_CHARS))

/-- The scored list rank builds. -/
def rankScoredOf (fz : FuzzyOracle) (h : Str → Str) (topic text : Str) : List Scored :=
  scoredList (fz (rankSentencesOf h text) topic) topic (rankSentencesOf h text)

/-- The candidate-selection core: none models the three empty-result returns
taken before the external model is invoked; some gives the sorted selected
indices and the pre-refinement quote list handed to the model. -/
def rankCore (fz : FuzzyOracle) (h : Str → Str) (topic text : Str) :
    Option (List Nat × List Str) :=
  let sents := rankSentencesOf h text
  let rs := fz sents topic
  let scored := scoredList rs topic sents
  if scored.any (fun e => 0 < e.keywordHits) = false ∧ rs.isEmpty then none
  else
    let sorted := List.insertionSort scoreGe scored
    let filtered := sorted.filter candCond
    let filtered2 :=
      if filtered.isEmpty then sorted.filter (fun e => decide (flt (fofNat 0) e.score))
      else filtered
    if filtered2.isEmpty then none
    else
      let picked := expandAll sents.length (filtered2.map (fun e => e.idx))
      let idxs := sortAsc picked
      let quotes := (idxs.map (fun i => sents.getD i [])).filter (fun q => !q.isEmpty)
      if quotes.isEmpty then none else some (idxs, quotes)

/-- The observable outcome of rank: an empty result returned without calling
the external refinement model, or an invocation of the model with the
pre-refinement quote list. -/
inductive RankResult where
  | empty : RankResult
  | invoke (quotes : List Str) : RankResult
deriving Repr, DecidableEq

/-- The rank operation. -/
def rank (fz : FuzzyOracle) (h : Str → Str) (topic text : Str) : RankResult :=
  match rankCore fz h topic text with
  | none => RankResult.empty
  | some p => RankResult.invoke p.2

/-! ### The PDF content cache (server.js lines 54-113)

A JS Map from cache key to entry; Date.now() is passed explicitly as now.
The key type is generic: string keys for remote documents, and an optional
string in the extraction flow where the JS url value may be undefined. -/

/-- Cache TTL, five minutes in milliseconds (PDF_CACHE_DURATION). -/
def PDF_CACHE_DURATION : Nat := 5 * 60 * 1000

/-- Maximum number of cached PDFs (MAX_CACHE_SIZE). -/
def MAX_CACHE_SIZE : Nat := 15

structure CacheEntry where
  content : Str
  isOCR : Bool
  timestamp : Nat
deriving Repr, DecidableEq

abbrev Cache (α : Type) := List (α × CacheEntry)

/-- The expiry sweep at the top of cachePdfContent: delete every entry whose
age exceeds the TTL (server.js lines 62-67). -/
def sweepExpired {α : Type} (c : Cache α) (now : Nat) : Cache α :=
  c.filter (fun p => ¬ PDF_CACHE_DURATION < now - p.2.timestamp)

/-- The oldest-entry scan of cachePdfContent (server.js lines 71-79):
oldestTime starts at now and only a strictly smaller timestamp wins. -/
def oldestKeyAux {α : Type} : Cache α → Option α → Nat → Option α
  | [], best, _ => best
  | (k, e) :: rest, best, t =>
    if e.timestamp < t then oldestKeyAux rest (some k) e.timestamp
    else oldestKeyAux rest best t

def oldestKeyOf {α : Type} (c : Cache α) (now : Nat) : Option α :=
  oldestKeyAux c none now

/-- cachePdfContent (server.js lines 59-91): sweep expired entries, evict the
found oldest entry when at capacity and the key is new, then upsert. -/
def cachePdfContent {α : Type} [DecidableEq α] (c : Cache α) (now : Nat)
    (key : α) (content : Str) (isOCR : Bool) : Cache α :=
  let c1 := sweepExpired c now
  let c2 :=
    if MAX_CACHE_SIZE ≤ c1.length ∧ mhas c1 key = false then
      match oldestKeyOf c1 now with
      | some k => mdel c1 k
      | none => c1
    else c1
  mset c2 key ⟨content, isOCR, now⟩

/-- getCachedPdfContent (server.js lines 93-113): miss when absent; evict and
miss when expired; otherwise refresh the timestamp and return the entry. -/
def getCachedPdfContent {α : Type} [DecidableEq α] (c : Cache α) (now : Nat)
    (key : α) : Option CacheEntry × Cache α :=
  match mget c key with
  | none => (none, c)
  | some e =>
    if PDF_CACHE_DURATION < now - e.timestamp then (none, mdel c key)
    else
      let e2 : CacheEntry := ⟨e.content, e.isOCR, now⟩
      (some e2, mset c key e2)

/-! ### PDF segmentation (server.js lines 667-698 and 749-761) -/

/-- Segment size in characters (SEGMENT_SIZE). -/
def SEGMENT_SIZE : Nat := 50000

/-- The segment-metadata loop of the extract-pdf handler (lines 680-687):
start positions step by SEGMENT_SIZE while below the content length; each
segment records its index, start, and end = min(start + SEGMENT_SIZE, len). -/
def segLoop (len : Nat) : Nat → Nat → List (Nat × Nat × Nat)
  | i, idx =>
    if i < len then (idx, i, min (i + SEGMENT_SIZE) len) :: segLoop len (i + SEGMENT_SIZE) (idx + 1)
    else []
termination_by i _ => len - i
decreasing_by simp [SEGMENT_SIZE]; omega

/-- The full segment metadata of a content length. -/
def buildSegments (len : Nat) : List (Nat × Nat × Nat) := segLoop len 0 0

/-- The get-pdf-segment handler (lines 749-761): cache lookup through
getCachedPdfContent, then the substring from segmentIndex times SEGMENT_SIZE
to min(start + SEGMENT_SIZE, content length). -/
def getPdfSegment {α : Type} [DecidableEq α] (c : Cache α) (now : Nat) (key : α)
    (segmentIndex : Nat) : Option Str × Cache α :=
  match getCachedPdfContent c now key with
  | (none, c2) => (none, c2)
  | (some e, c2) =>
    let start := segmentIndex * SEGMENT_SIZE
    let stop := min (start + SEGMENT_SIZE) e.content.length
    (some ((e.content.drop start).take (stop - start)), c2)

/-! ### The tail of the extract-pdf handler (server.js lines 616-708)

After pdf2json text extraction the handler decides whether to run OCR
(scanned detection, cached OCR reuse, the 30-page limit, the OCR oracle),
then whether to return content directly or cache it with segment metadata.
The JS url may be undefined, so cache keys here are optional strings. -/

inductive PdfOutcome where
  | tooLarge (pageCount : Nat) (extractedText : Str) : PdfOutcome
  | segmented (totalLength : Nat) (segments : List (Nat × Nat × Nat))
      (key : Option Str) (isOCR : Bool) : PdfOutcome
  | direct (content : Str) (key : Option Str) (isOCR : Bool) : PdfOutcome
deriving Repr, DecidableEq

/-- The local-file cache key: local_ plus title plus _ plus the first 100
characters of the text stripped to alphanumerics (server.js line 671). -/
def localKeyOf (title text : Str) : Str :=
  "local_".data ++ title ++ "_".data ++ ((text.take 100).filter isAnyAlnum)

/-- The cache key: the url when present and non-empty (JS truthiness of a
string), else the derived local key. -/
def cacheKeyOf (url : Option Str) (title text : Str) : Option Str :=
  match url with
  | some u => if u.isEmpty then some (localKeyOf title text) else some u
  | none => some (localKeyOf title text)

/-- The segmentation decision (server.js lines 673-708): content longer than
SEGMENT_SIZE is cached under the cache key and segment metadata is returned,
otherwise the content itself is returned. -/
def finishSegmentation (c : Cache (Option Str)) (now : Nat) (url : Option Str)
    (title : Str) (text : Str) (ocrUsed : Bool) : PdfOutcome × Cache (Option Str) :=
  let ck := cacheKeyOf url title text
  if SEGMENT_SIZE < text.length then
    (PdfOutcome.segmented text.length (buildSegments text.length) ck ocrUsed,
      cachePdfContent c now ck text ocrUsed)
  else
    (PdfOutcome.direct text ck ocrUsed, c)

/-- The fresh-OCR part of the scanned branch (server.js lines 630-664): the
30-page limit, then the OCR oracle; success replaces the text and caches it
under the raw url with the OCR flag, failure keeps the original text. -/
def ocrBranch (c : Cache (Option Str)) (now : Nat) (url : Option Str) (title : Str)
    (text0 : Str) (pageCount : Nat) (ocrResult : Option Str) :
    PdfOutcome × Cache (Option Str) :=
  if 30 < pageCount then (PdfOutcome.tooLarge pageCount text0, c)
  else
    match ocrResult with
    | some t => finishSegmentation (cachePdfContent c now url t true) now url title t true
    | none => finishSegmentation c now url title text0 false

/-- The post-extraction flow (server.js lines 616-708): scanned detection by
average characters per page below 500, cached OCR reuse, fresh OCR, then the
segmentation decision. hasVision models the visionClient presence and
ocrResult the OCR call outcome. -/
def extractPdfFinish (c : Cache (Option Str)) (now : Nat) (url : Option Str)
    (title : Str) (text0 : Str) (pageCount : Nat) (hasVision : Bool)
    (ocrResult : Option Str) : PdfOutcome × Cache (Option Str) :=
  let isScanned := 0 < pageCount ∧ text0.length < 500 * pageCount
  if isScanned ∧ hasVision = true then
    match getCachedPdfContent c now url with
    | (some e, c1) =>
      if e.isOCR then finishSegmentation c1 now url title e.content true
      else ocrBranch c1 now url title text0 pageCount ocrResult
    | (none, c1) => ocrBranch c1 now url title text0 pageCount ocrResult
  else
    finishSegmentation c now url title text0 false

/-! ### OCR fan-out (extractPDFTextOCR, server.js lines 121-195) -/

/-- Pages per Vision request (PAGES_PER_REQUEST). -/
def PAGES_PER_REQUEST : Nat := 5

/-- The chunking loop (server.js lines 134-141): from page i, the chunk holds
pages i through min(i + 4, totalPages), stepping by 5. -/
def chunkLoop (totalPages : Nat) : Nat → List (List Nat)
  | i =>
    if i ≤ totalPages then
      List.range' i (min (i + (PAGES_PER_REQUEST - 1)) totalPages - i + 1)
        :: chunkLoop totalPages (i + PAGES_PER_REQUEST)
    else []
termination_by i => totalPages + 1 - i
decreasing_by simp [PAGES_PER_REQUEST]; omega

/-- The page chunks of a document, starting at page 1. -/
def ocrChunks (totalPages : Nat) : List (List Nat) := chunkLoop totalPages 1

/-- Comparator key order of the result sort (server.js line 184). -/
def chunkIdxLe (a b : Nat × Str) : Prop := a.1 ≤ b.1

instance : DecidableRel chunkIdxLe := fun a b => Nat.decLe a.1 b.1

instance : IsTotal (Nat × Str) chunkIdxLe := ⟨fun a b => Nat.le_total a.1 b.1⟩

instance : IsTrans (Nat × Str) chunkIdxLe := ⟨fun _ _ _ h1 h2 => Nat.le_trans h1 h2⟩

/-- Array.prototype.join with a single space. -/
def joinSpace : List Str → Str
  | [] => []
  | [x] => x
  | x :: y :: rest => x ++ ' ' :: joinSpace (y :: rest)

/-- Reassembly of the completed chunk results (server.js lines 180-185): the
results arrive as chunk-index and text pairs in completion order; sort by
chunk index and join the texts with spaces. -/
def combineOcrResults (results : List (Nat × Str)) : Str :=
  joinSpace ((List.insertionSort chunkIdxLe results).map (fun r => r.2))

/-! ### Concrete example inputs used by witnesses and counterexamples -/

/-- The identity body-text oracle (plain-text inputs). -/
def idOracle : Str → Str := fun s => s

/-- The fuzzy oracle that returns no match. -/
def emptyFuzzy : FuzzyOracle := fun _ _ => []

/-- A trimmed unit of length exactly 20. -/
def exUnit20 : Str := List.replicate 20 'a'

/-- A three-unit text whose middle unit is short. -/
def exThreeUnits : Str :=
  "The first sentence is long enough to keep. No. The third sentence is also long enough to keep.".data

/-- A topic with no occurrence in the matching example text. -/
def exTopicMiss : Str := "zzz".data

/-- A text with no occurrence of the missing topic. -/
def exTextMiss : Str := "This sentence talks about something entirely different and long.".data

/-- A topic for the positive rank example. -/
def exTopicCats : Str := "cats".data

/-- A text with two sentences mentioning the topic around one that does not. -/
def exTextCats : Str :=
  ("Cats are wonderful pets to have around. Dogs are loyal companions in many homes. "
    ++ "The cats sleep all day on the warm windowsill.").data

/-- Sixteen distinct cache keys. -/
def exKeys16 : List String :=
  ["k01", "k02", "k03", "k04", "k05", "k06", "k07", "k08",
   "k09", "k10", "k11", "k12", "k13", "k14", "k15", "k16"]

/-- A short text a scanner would produce from one page. -/
def exScanText : Str := "short scanned text here".data

/-- A short OCR result for the same page. -/
def exOcrText : Str := "ocr corrected text of the page".data

end Quotely

namespace Quotely

/-! ## Theorems -/

/-- Map.get after Map.set of the same key reads the written value. -/
theorem mget_mset_self {α β : Type} [DecidableEq α] :
    ∀ (m : List (α × β)) (k : α) (v : β), mget (mset m k v) k = some v
  | [], k, v => by simp [mget, mset]
  | (k2, v2) :: rest, k, v => by
    by_cases h : k2 = k
    · simp [mget, mset, h]
    · simp [mget, mset, h, mget_mset_self rest k v]

/-- Map.get after Map.delete of the same key misses. -/
theorem mget_mdel_self {α β : Type} [DecidableEq α] :
    ∀ (m : List (α × β)) (k : α), mget (mdel m k) k = none
  | [], _ => by simp [mget, mdel]
  | (k2, v2) :: rest, k => by
    by_cases h : k2 = k
    · simpa [mdel, List.filter, h] using mget_mdel_self rest k
    · simpa [mdel, List.filter, h, mget] using mget_mdel_self rest k

/-- Claim C6: a get more than the TTL after the stored timestamp misses and
removes the entry, so a following get also misses; a get within the TTL
returns the stored content and OCR flag and refreshes the timestamp to the
read time. -/
theorem cache_get_ttl_semantics {α : Type} [DecidableEq α] (c : Cache α) (key : α)
    (content : Str) (ocr : Bool) (ts now : Nat)
    (hget : mget c key = some ⟨content, ocr, ts⟩) :
    (PDF_CACHE_DURATION < now - ts →
      (getCachedPdfContent c now key).1 = none ∧
      mget (getCachedPdfContent c now key).2 key = none ∧
      ∀ later : Nat, (getCachedPdfContent (getCachedPdfContent c now key).2 later key).1 = none) ∧
    (now - ts ≤ PDF_CACHE_DURATION →
      (getCachedPdfContent c now key).1 = some ⟨content, ocr, now⟩ ∧
      mget (getCachedPdfContent c now key).2 key = some ⟨content, ocr, now⟩) := by
  constructor
  · intro hexp
    have hstep : getCachedPdfContent c now key = (none, mdel c key) := by
      simp [getCachedPdfContent, hget, hexp]
    refine ⟨by rw [hstep], by rw [hstep]; exact mget_mdel_self c key, ?_⟩
    intro later
    rw [hstep]
    simp [getCachedPdfContent, mget_mdel_self]
  · intro hfresh
    have hnot : ¬ PDF_CACHE_DURATION < now - ts := by omega
    simp [getCachedPdfContent, hget, hnot, mget_mset_self]

/-- Witness for C6 at a concrete one-entry cache. -/
theorem cache_get_ttl_semantics_witness :
    mget [("u", (⟨['h'], false, 0⟩ : CacheEntry))] "u" = some ⟨['h'], false, 0⟩ ∧
    ((PDF_CACHE_DURATION < 10 - 0 →
      (getCachedPdfContent [("u", (⟨['h'], false, 0⟩ : CacheEntry))] 10 "u").1 = none ∧
      mget (getCachedPdfContent [("u", (⟨['h'], false, 0⟩ : CacheEntry))] 10 "u").2 "u" = none ∧
      ∀ later : Nat,
        (getCachedPdfContent
          (getCachedPdfContent [("u", (⟨['h'], false, 0⟩ : CacheEntry))] 10 "u").2 later "u").1
          = none) ∧
    (10 - 0 ≤ PDF_CACHE_DURATION →
      (getCachedPdfContent [("u", (⟨['h'], false, 0⟩ : CacheEntry))] 10 "u").1
        = some ⟨['h'], false, 10⟩ ∧
      mget (getCachedPdfContent [("u", (⟨['h'], false, 0⟩ : CacheEntry))] 10 "u").2 "u"
        = some ⟨['h'], false, 10⟩)) :=
  ⟨by decide, cache_get_ttl_semantics _ "u" ['h'] false 0 10 (by decide)⟩

/-- Claim C5 (code bug): sixteen distinct keys inserted at one and the same
millisecond leave sixteen live entries, exceeding MAX_CACHE_SIZE; the
oldest-entry scan compares strictly against the insertion time, so entries
as new as now are never chosen for eviction. -/
theorem cache_overflow_on_equal_timestamps :
    exKeys16.Nodup ∧ exKeys16.length = MAX_CACHE_SIZE + 1 ∧
    (exKeys16.foldl (fun c k => cachePdfContent c 0 k ['a'] false) ([] : Cache String)).length
      = MAX_CACHE_SIZE + 1 := by decide

/-- Claim C10: rank only ever looks at the first 50000 characters of the
supplied content; later characters never influence the outcome. -/
theorem rank_truncates_input (fz : FuzzyOracle) (h : Str → Str) (topic text : Str) :
    rank fz h topic text = rank fz h topic (text.take 50000) := by
  have ht : (text.take (50000 : Nat)).take MAX_CHARS = text.take MAX_CHARS := by
    simp [MAX_CHARS, List.take_take]
  unfold rank rankCore rankSentencesOf
  rw [ht]

/-- Appending a fresh in-bounds element preserves the selection invariant. -/
theorem nodup_lt_snoc {l : List Nat} {a n : Nat} (h1 : l.Nodup) (h2 : ∀ j ∈ l, j < n)
    (ha : a ∉ l) (han : a < n) : (l ++ [a]).Nodup ∧ ∀ j ∈ l ++ [a], j < n := by
  constructor
  · simp [List.nodup_append, h1, ha]
  · intro j hj
    rcases List.mem_append.mp hj with hmem | hmem
    · exact h2 j hmem
    · simp at hmem
      omega

/-- The predecessor step preserves distinctness and the index bound. -/
theorem expandBefore_inv (idx n : Nat) (p1 : List Nat) (h1 : p1.Nodup)
    (h2 : ∀ j ∈ p1, j < n) (h3 : idx < n) :
    (expandBefore idx p1).Nodup ∧ ∀ j ∈ expandBefore idx p1, j < n := by
  unfold expandBefore
  by_cases hb : 1 ≤ idx ∧ ¬ idx - 1 ∈ p1
  · rw [if_pos hb]
    exact nodup_lt_snoc h1 h2 hb.2 (by omega)
  · rw [if_neg hb]
    exact ⟨h1, h2⟩

/-- The successor step preserves distinctness and the index bound. -/
theorem expandAfter_inv (n idx : Nat) (p2 : List Nat) (h1 : p2.Nodup)
    (h2 : ∀ j ∈ p2, j < n) :
    (expandAfter n idx p2).Nodup ∧ ∀ j ∈ expandAfter n idx p2, j < n := by
  unfold expandAfter
  by_cases hc : idx + 1 < n ∧ ¬ idx + 1 ∈ p2
  · rw [if_pos hc]
    exact nodup_lt_snoc h1 h2 hc.2 hc.1
  · rw [if_neg hc]
    exact ⟨h1, h2⟩

/-- One expansion step preserves distinctness and the index bound. -/
theorem expandStep_inv (n idx : Nat) (st : List Nat) (h1 : st.Nodup)
    (h2 : ∀ j ∈ st, j < n) (h3 : idx < n) :
    (expandStep n st idx).Nodup ∧ ∀ j ∈ expandStep n st idx, j < n := by
  unfold expandStep
  by_cases hm : idx ∈ st
  · simpa [hm] using ⟨h1, h2⟩
  · rw [if_neg hm]
    obtain ⟨g1, g2⟩ := nodup_lt_snoc h1 h2 hm h3
    obtain ⟨g3, g4⟩ := expandBefore_inv idx n (st ++ [idx]) g1 g2 h3
    exact expandAfter_inv n idx (expandBefore idx (st ++ [idx])) g3 g4

/-- The expansion fold preserves the invariant from any valid start state. -/
theorem expandFold_inv (n : Nat) :
    ∀ (cands st : List Nat), st.Nodup → (∀ j ∈ st, j < n) → (∀ i ∈ cands, i < n) →
      (cands.foldl (expandStep n) st).Nodup ∧ ∀ j ∈ cands.foldl (expandStep n) st, j < n
  | [], st, h1, h2, _ => by simpa using ⟨h1, h2⟩
  | i :: rest, st, h1, h2, hc => by
    have hi : i < n := hc i (by simp)
    obtain ⟨g1, g2⟩ := expandStep_inv n i st h1 h2 hi
    simpa [List.foldl] using
      expandFold_inv n rest (expandStep n st i) g1 g2 (fun j hj => hc j (by simp [hj]))

/-- Claim C4: context-window expansion over candidates with in-range indices
never selects an index twice and never selects an index out of range. -/
theorem expansion_nodup_and_in_bounds (n : Nat) (cands : List Nat)
    (hb : ∀ i ∈ cands, i < n) :
    (expandAll n cands).Nodup ∧ ∀ j ∈ expandAll n cands, j < n := by
  simpa [expandAll] using expandFold_inv n cands [] (by simp) (by simp) hb

/-- Witness for C4 at a concrete candidate list. -/
theorem expansion_nodup_and_in_bounds_witness :
    (∀ i ∈ [2, 0], i < 5) ∧
    ((expandAll 5 [2, 0]).Nodup ∧ ∀ j ∈ expandAll 5 [2, 0], j < 5) :=
  ⟨by decide, expansion_nodup_and_in_bounds 5 [2, 0] (by decide)⟩

/-- A scored sentence carries the index its sentence had in the corpus. -/
theorem mem_scoredList_idx_lt {rs : List FuzzyResult} {topic : Str} {ss : List Str}
    {e : Scored} (he : e ∈ scoredList rs topic ss) : e.idx < ss.length := by
  simp only [scoredList] at he
  obtain ⟨p, hp, rfl⟩ := List.mem_map.mp he
  have hpz : p ∈ (List.range ss.length).zip ss := by
    rw [← List.enum_eq_zip_range]
    exact hp
  obtain ⟨i, s⟩ := p
  exact List.mem_range.mp (List.of_mem_zip hpz).1

/-- Members of a filter of the score-sorted scored list keep their index in
range. -/
theorem filter_sorted_scored_idx_lt {rs : List FuzzyResult} {topic : Str} {ss : List Str}
    {q : Scored → Bool} :
    ∀ e ∈ (List.insertionSort scoreGe (scoredList rs topic ss)).filter q,
      e.idx < ss.length := by
  intro e he
  have h1 : e ∈ List.insertionSort scoreGe (scoredList rs topic ss) :=
    (List.mem_filter.mp he).1
  exact mem_scoredList_idx_lt ((List.mem_insertionSort _).mp h1)

/-- Sentences the segmenter produces are never empty (their length exceeds
20). -/
theorem sentencesOf_not_empty {t : Str} {s : Str} (hs : s ∈ sentencesOf t) :
    s.isEmpty = false := by
  have h2 := (List.mem_filter.mp hs).2
  simp only [decide_eq_true_eq] at h2
  cases s with
  | nil => simp at h2
  | cons a as => simp

/-- The selection tail of rank: sorted ascending, distinct, and the
emptiness filter keeps every mapped sentence. -/
theorem select_core (ss : List Str) (cands : List Nat)
    (hb : ∀ i ∈ cands, i < ss.length)
    (hne : ∀ s ∈ ss, s.isEmpty = false) :
    List.Sorted (· ≤ ·) (sortAsc (expandAll ss.length cands)) ∧
    (sortAsc (expandAll ss.length cands)).Nodup ∧
    ((sortAsc (expandAll ss.length cands)).map (fun i => ss.getD i [])).filter
        (fun q => !q.isEmpty)
      = (sortAsc (expandAll ss.length cands)).map (fun i => ss.getD i []) := by
  have hinv : (expandAll ss.length cands).Nodup ∧
      ∀ j ∈ expandAll ss.length cands, j < ss.length := by
    simpa [expandAll] using
      expandFold_inv ss.length cands [] (by simp) (by simp) hb
  refine ⟨List.sorted_insertionSort _ _,
    (List.perm_insertionSort _ _).symm.nodup hinv.1, ?_⟩
  rw [List.filter_eq_self]
  intro q hq
  obtain ⟨i, hi, rfl⟩ := List.mem_map.mp hq
  have hi2 : i ∈ expandAll ss.length cands := by
    simpa [sortAsc] using (List.mem_insertionSort _).mp hi
  have hilt := hinv.2 i hi2
  rw [List.getD_eq_getElem ss [] hilt]
  rw [hne _ (List.getElem_mem hilt)]
  rfl

/-- A success leaf of rankCore satisfies the reading-order properties; the
candidate set is a filter of the score-sorted scored list. -/
theorem leaf_case {rs : List FuzzyResult} {topic : Str} {ss : List Str}
    (q : Scored → Bool) {idxs : List Nat} {quotes : List Str}
    (hne : ∀ s ∈ ss, s.isEmpty = false)
    (hEq : (sortAsc (expandAll ss.length
        (((List.insertionSort scoreGe (scoredList rs topic ss)).filter q).map
          (fun e => e.idx))),
      ((sortAsc (expandAll ss.length
          (((List.insertionSort scoreGe (scoredList rs topic ss)).filter q).map
            (fun e => e.idx)))).map (fun i => ss.getD i [])).filter
        (fun u => !u.isEmpty)) = (idxs, quotes)) :
    List.Sorted (· ≤ ·) idxs ∧ idxs.Nodup ∧
    quotes = idxs.map (fun i => ss.getD i []) := by
  obtain ⟨h1, h2⟩ := Prod.ext_iff.mp hEq
  subst h1
  subst h2
  have hb : ∀ i ∈ ((List.insertionSort scoreGe (scoredList rs topic ss)).filter q).map
      (fun e => e.idx), i < ss.length := by
    intro i hi
    obtain ⟨e, he, rfl⟩ := List.mem_map.mp hi
    exact filter_sorted_scored_idx_lt e he
  obtain ⟨s1, s2, s3⟩ := select_core ss _ hb hne
  exact ⟨s1, s2, s3⟩

/-- Claim C2: whenever rank reaches the external model, the selected indices
are sorted ascending into document reading order, are distinct, and the
pre-refinement quote list is exactly the corresponding sentences in that
order, never in score order. -/
theorem rank_candidates_in_reading_order (fz : FuzzyOracle) (h : Str → Str)
    (topic text : Str) (idxs : List Nat) (quotes : List Str)
    (hr : rankCore fz h topic text = some (idxs, quotes)) :
    List.Sorted (· ≤ ·) idxs ∧ idxs.Nodup ∧
    quotes = idxs.map (fun i => (rankSentencesOf h text).getD i []) := by
  have hne : ∀ s ∈ rankSentencesOf h text, s.isEmpty = false := by
    intro s hs
    exact sentencesOf_not_empty hs
  simp only [rankCore] at hr
  split at hr
  · exact absurd hr (by simp)
  · split at hr
    · split at hr
      · exact absurd hr (by simp)
      · split at hr
        · exact absurd hr (by simp)
        · exact leaf_case _ hne (Option.some_inj.mp hr)
    · split at hr
      · exact absurd hr (by simp)
      · exact leaf_case _ hne (Option.some_inj.mp hr)

/-- Witness for C2 at a concrete topic and text: two sentences mention the
topic and the sentence between them is pulled in as context; the handed-over
list is in document order. -/
theorem rank_candidates_in_reading_order_witness :
    rankCore emptyFuzzy idOracle exTopicCats exTextCats
      = some ([0, 1, 2],
          ["Cats are wonderful pets to have around.".data,
           "Dogs are loyal companions in many homes.".data,
           "The cats sleep all day on the warm windowsill.".data]) ∧
    (List.Sorted (· ≤ ·) [0, 1, 2] ∧ ([0, 1, 2] : List Nat).Nodup ∧
      ["Cats are wonderful pets to have around.".data,
       "Dogs are loyal companions in many homes.".data,
       "The cats sleep all day on the warm windowsill.".data]
        = [0, 1, 2].map (fun i => (rankSentencesOf idOracle exTextCats).getD i [])) := by
  have hdec : rankCore emptyFuzzy idOracle exTopicCats exTextCats
      = some ([0, 1, 2],
          ["Cats are wonderful pets to have around.".data,
           "Dogs are loyal companions in many homes.".data,
           "The cats sleep all day on the warm windowsill.".data]) := by decide
  exact ⟨hdec,
    rank_candidates_in_reading_order emptyFuzzy idOracle exTopicCats exTextCats _ _ hdec⟩

/-- Counterexample to claim C3 as stated: a trimmed unit of length exactly
20 is a unit of length 20 or more, yet the segmenter discards it. -/
theorem segmenter_drops_length20_unit :
    exUnit20 ∈ trimmedUnitsOf exUnit20 ∧ exUnit20.length = 20 ∧
    exUnit20 ∉ sentencesOf exUnit20 := by decide

/-- Claim C3 as amended: the segmenter splits at sentence-final punctuation
followed by whitespace and trims each unit, and it keeps exactly the trimmed
units of length strictly greater than 20, renumbering indices densely; on the
example, the short middle unit is dropped and the third unit moves to
index 1. -/
theorem segmenter_filter_characterization :
    (∀ text u, u ∈ sentencesOf text ↔ u ∈ trimmedUnitsOf text ∧ 20 < u.length) ∧
    trimmedUnitsOf exThreeUnits =
      ["The first sentence is long enough to keep.".data, "No.".data,
       "The third sentence is also long enough to keep.".data] ∧
    sentencesOf exThreeUnits =
      ["The first sentence is long enough to keep.".data,
       "The third sentence is also long enough to keep.".data] := by
  refine ⟨?_, by decide, by decide⟩
  intro text u
  simp [sentencesOf, List.mem_filter]

/-- Claim C1: with no keyword hit in any scored sentence and an empty fuzzy
result list, rank returns the empty result without invoking the external
model. -/
theorem rank_no_signal_returns_empty (fz : FuzzyOracle) (h : Str → Str) (topic text : Str)
    (hfz : fz (rankSentencesOf h text) topic = [])
    (hkw : ∀ e ∈ rankScoredOf fz h topic text, e.keywordHits = 0) :
    rank fz h topic text = RankResult.empty := by
  unfold rankScoredOf at hkw
  rw [hfz] at hkw
  have hany : (scoredList [] topic (rankSentencesOf h text)).any
      (fun e => 0 < e.keywordHits) = false := by
    rw [List.any_eq_false]
    intro e he
    simp [hkw e he]
  simp [rank, rankCore, hfz, hany]

/-- Witness for C1 at a concrete topic and text with no relevance signal. -/
theorem rank_no_signal_returns_empty_witness :
    (emptyFuzzy (rankSentencesOf idOracle exTextMiss) exTopicMiss = [] ∧
     ∀ e ∈ rankScoredOf emptyFuzzy idOracle exTopicMiss exTextMiss, e.keywordHits = 0) ∧
    rank emptyFuzzy idOracle exTopicMiss exTextMiss = RankResult.empty :=
  ⟨⟨rfl, by decide⟩,
   rank_no_signal_returns_empty emptyFuzzy idOracle exTopicMiss exTextMiss rfl (by decide)⟩

/-- The segment-metadata loop produces exactly the arithmetic segment
ranges, counted by the ceiling of the remaining length over SEGMENT_SIZE. -/
theorem segLoop_spec (d : Nat) : ∀ (len j : Nat), len - j * SEGMENT_SIZE = d →
    segLoop len (j * SEGMENT_SIZE) j =
      (List.range ((d + SEGMENT_SIZE - 1) / SEGMENT_SIZE)).map
        (fun t => (j + t, (j + t) * SEGMENT_SIZE, min ((j + t + 1) * SEGMENT_SIZE) len)) := by
  induction d using Nat.strong_induction_on with
  | _ d IH =>
    intro len j hd
    by_cases hlt : j * SEGMENT_SIZE < len
    · unfold segLoop
      rw [if_pos hlt]
      have hd0 : 0 < d := by omega
      have hK : (d + SEGMENT_SIZE - 1) / SEGMENT_SIZE
          = ((d - SEGMENT_SIZE) + SEGMENT_SIZE - 1) / SEGMENT_SIZE + 1 := by
        simp only [SEGMENT_SIZE]
        omega
      rw [hK, List.range_succ_eq_map, List.map_cons, List.map_map]
      have hnext : len - (j + 1) * SEGMENT_SIZE = d - SEGMENT_SIZE := by
        simp only [SEGMENT_SIZE] at hd ⊢
        omega
      have hrec := IH (d - SEGMENT_SIZE) (by simp only [SEGMENT_SIZE]; omega)
        len (j + 1) hnext
      refine congrArg₂ List.cons ?_ ?_
      · simp [Nat.add_mul]
      · rw [show j * SEGMENT_SIZE + SEGMENT_SIZE = (j + 1) * SEGMENT_SIZE from by ring]
        rw [hrec]
        apply List.map_congr_left
        intro t ht
        simp only [Function.comp]
        have hjt : j + 1 + t = j + (t + 1) := by omega
        rw [hjt]
    · unfold segLoop
      rw [if_neg hlt]
      have hdz : d = 0 := by omega
      subst hdz
      rw [show (0 + SEGMENT_SIZE - 1) / SEGMENT_SIZE = 0 from by simp [SEGMENT_SIZE]]
      rfl

/-- Claim C7, first part: the computed segments are the half-open ranges of
the arithmetic formula. -/
theorem buildSegments_formula (len : Nat) :
    buildSegments len = (List.range ((len + SEGMENT_SIZE - 1) / SEGMENT_SIZE)).map
      (fun t => (t, t * SEGMENT_SIZE, min ((t + 1) * SEGMENT_SIZE) len)) := by
  have h := segLoop_spec (len - 0 * SEGMENT_SIZE) len 0 rfl
  simpa [buildSegments] using h

/-- Splitting a list into SEGMENT_SIZE chunks and joining them back gives
the original list. -/
theorem chunksJoinAux : ∀ (n : Nat) (l : Str), l.length ≤ n →
    ((List.range ((l.length + SEGMENT_SIZE - 1) / SEGMENT_SIZE)).map
      (fun i => (l.drop (i * SEGMENT_SIZE)).take SEGMENT_SIZE)).flatten = l := by
  intro n
  induction n with
  | zero =>
    intro l hl
    have h0 : l = [] := List.length_eq_zero.mp (Nat.le_zero.mp hl)
    subst h0
    rw [show ((([] : Str).length + SEGMENT_SIZE - 1) / SEGMENT_SIZE) = 0 from by
      simp [SEGMENT_SIZE]]
    rfl
  | succ n IH =>
    intro l hl
    by_cases h0 : l = []
    · subst h0
      rw [show ((([] : Str).length + SEGMENT_SIZE - 1) / SEGMENT_SIZE) = 0 from by
        simp [SEGMENT_SIZE]]
      rfl
    · have hlen : 0 < l.length := List.length_pos.mpr h0
      have hK : (l.length + SEGMENT_SIZE - 1) / SEGMENT_SIZE
          = ((l.drop SEGMENT_SIZE).length + SEGMENT_SIZE - 1) / SEGMENT_SIZE + 1 := by
        rw [List.length_drop]
        simp only [SEGMENT_SIZE]
        omega
      rw [hK, List.range_succ_eq_map, List.map_cons, List.map_map, List.flatten_cons]
      have htail : List.map ((fun i => (l.drop (i * SEGMENT_SIZE)).take SEGMENT_SIZE) ∘ Nat.succ)
          (List.range (((l.drop SEGMENT_SIZE).length + SEGMENT_SIZE - 1) / SEGMENT_SIZE))
          = List.map (fun i => ((l.drop SEGMENT_SIZE).drop (i * SEGMENT_SIZE)).take SEGMENT_SIZE)
            (List.range (((l.drop SEGMENT_SIZE).length + SEGMENT_SIZE - 1) / SEGMENT_SIZE)) := by
        apply List.map_congr_left
        intro t ht
        simp only [Function.comp]
        rw [List.drop_drop]
        congr 2
        simp only [Nat.succ_eq_add_one]
        ring
      rw [htail]
      rw [IH (l.drop SEGMENT_SIZE)
        (by rw [List.length_drop]; simp only [SEGMENT_SIZE] at hl ⊢; omega)]
      simp only [Nat.zero_mul, List.drop_zero]
      exact List.take_append_drop SEGMENT_SIZE l

/-- A fetch of an in-range segment from a fresh cache entry returns exactly
the SEGMENT_SIZE chunk of the cached content at that index. -/
theorem getPdfSegment_fresh {α : Type} [DecidableEq α] (c : Cache α) (key : α)
    (content : Str) (ocr : Bool) (ts now : Nat)
    (hget : mget c key = some ⟨content, ocr, ts⟩) (hfresh : now - ts ≤ PDF_CACHE_DURATION)
    (i : Nat) (hi : i * SEGMENT_SIZE < content.length) :
    (getPdfSegment c now key i).1
      = some ((content.drop (i * SEGMENT_SIZE)).take SEGMENT_SIZE) := by
  have hnot : ¬ PDF_CACHE_DURATION < now - ts := by omega
  simp only [getPdfSegment, getCachedPdfContent, hget, hnot, if_false]
  congr 1
  rw [List.take_eq_take, List.length_drop]
  simp only [SEGMENT_SIZE] at hi ⊢
  omega

/-- Claim C7: the computed segments are the half-open ranges of the formula,
fetching every segment index in order and concatenating reconstructs the
cached content exactly, and a 50001-character document yields exactly the
two segments of the spec example. -/
theorem segmentation_reconstructs_content (c : Cache String) (key : String)
    (content : Str) (ocr : Bool) (ts now : Nat)
    (hget : mget c key = some ⟨content, ocr, ts⟩)
    (hfresh : now - ts ≤ PDF_CACHE_DURATION) :
    buildSegments content.length
      = (List.range ((content.length + SEGMENT_SIZE - 1) / SEGMENT_SIZE)).map
          (fun i => (i, i * SEGMENT_SIZE, min ((i + 1) * SEGMENT_SIZE) content.length)) ∧
    ((List.range ((content.length + SEGMENT_SIZE - 1) / SEGMENT_SIZE)).map
        (fun i => ((getPdfSegment c now key i).1.getD []))).flatten = content ∧
    buildSegments 50001 = [(0, 0, 50000), (1, 50000, 50001)] := by
  refine ⟨buildSegments_formula _, ?_, ?_⟩
  · have hmap : (List.range ((content.length + SEGMENT_SIZE - 1) / SEGMENT_SIZE)).map
        (fun i => ((getPdfSegment c now key i).1.getD []))
        = (List.range ((content.length + SEGMENT_SIZE - 1) / SEGMENT_SIZE)).map
          (fun i => (content.drop (i * SEGMENT_SIZE)).take SEGMENT_SIZE) := by
      apply List.map_congr_left
      intro i hi
      have hir := List.mem_range.mp hi
      have hi2 : i * SEGMENT_SIZE < content.length := by
        simp only [SEGMENT_SIZE] at hir ⊢
        omega
      rw [getPdfSegment_fresh c key content ocr ts now hget hfresh i hi2]
      rfl
    rw [hmap]
    exact chunksJoinAux content.length content le_rfl
  · rw [buildSegments_formula]
    rw [show (50001 + SEGMENT_SIZE - 1) / SEGMENT_SIZE = 2 from by simp [SEGMENT_SIZE]]
    decide

/-- Witness for C7 at a concrete three-character cached document. -/
theorem segmentation_reconstructs_content_witness :
    (mget [("u", (⟨"abc".data, false, 0⟩ : CacheEntry))] "u" = some ⟨"abc".data, false, 0⟩ ∧
     5 - 0 ≤ PDF_CACHE_DURATION) ∧
    (buildSegments ("abc".data : Str).length
        = (List.range ((("abc".data : Str).length + SEGMENT_SIZE - 1) / SEGMENT_SIZE)).map
            (fun i => (i, i * SEGMENT_SIZE, min ((i + 1) * SEGMENT_SIZE)
              ("abc".data : Str).length)) ∧
     ((List.range ((("abc".data : Str).length + SEGMENT_SIZE - 1) / SEGMENT_SIZE)).map
        (fun i => ((getPdfSegment [("u", (⟨"abc".data, false, 0⟩ : CacheEntry))]
          5 "u" i).1.getD []))).flatten = "abc".data ∧
     buildSegments 50001 = [(0, 0, 50000), (1, 50000, 50001)]) :=
  ⟨⟨by decide, by decide⟩,
   segmentation_reconstructs_content [("u", (⟨"abc".data, false, 0⟩ : CacheEntry))] "u"
     "abc".data false 0 5 (by decide) (by decide)⟩

/-- Counterexample to claim C8 as stated: a one-page scanned document whose
fresh OCR text is well under SEGMENT_SIZE is returned directly, yet the OCR
branch has cached it, so the cache does not stay unchanged. -/
theorem ocr_short_document_is_cached :
    (extractPdfFinish [] 0 (some "u".data) "t".data exScanText 1 true (some exOcrText)).1
      = PdfOutcome.direct exOcrText (some "u".data) true ∧
    exOcrText.length ≤ SEGMENT_SIZE ∧
    (extractPdfFinish [] 0 (some "u".data) "t".data exScanText 1 true (some exOcrText)).2
      ≠ ([] : Cache (Option Str)) := by decide

/-- Claim C8 as amended: for every document that does not enter the OCR
branch, content of length at most SEGMENT_SIZE is returned directly with the
cache left unchanged, and exactly the longer documents are cached with
segment metadata returned in place of the content; a freshly OCR-processed
document is cached regardless of length. -/
theorem ingestion_segmentation_decision (c : Cache (Option Str)) (now : Nat)
    (url : Option Str) (title text0 : Str) (pageCount : Nat) (hasVision : Bool)
    (ocrResult : Option Str)
    (hnoOcr : ¬ ((0 < pageCount ∧ text0.length < 500 * pageCount) ∧ hasVision = true)) :
    (text0.length ≤ SEGMENT_SIZE →
      extractPdfFinish c now url title text0 pageCount hasVision ocrResult
        = (PdfOutcome.direct text0 (cacheKeyOf url title text0) false, c)) ∧
    (SEGMENT_SIZE < text0.length →
      extractPdfFinish c now url title text0 pageCount hasVision ocrResult
        = (PdfOutcome.segmented text0.length (buildSegments text0.length)
            (cacheKeyOf url title text0) false,
           cachePdfContent c now (cacheKeyOf url title text0) text0 false)) := by
  unfold extractPdfFinish
  rw [if_neg hnoOcr]
  unfold finishSegmentation
  constructor
  · intro hle
    rw [if_neg (by omega)]
  · intro hgt
    rw [if_pos hgt]

/-- Witness for C8 at a concrete text-based document. -/
theorem ingestion_segmentation_decision_witness :
    (¬ ((0 < 1 ∧ exTextMiss.length < 500 * 1) ∧ false = true)) ∧
    ((exTextMiss.length ≤ SEGMENT_SIZE →
      extractPdfFinish [] 0 (some "u".data) "t".data exTextMiss 1 false none
        = (PdfOutcome.direct exTextMiss (cacheKeyOf (some "u".data) "t".data exTextMiss)
            false, [])) ∧
    (SEGMENT_SIZE < exTextMiss.length →
      extractPdfFinish [] 0 (some "u".data) "t".data exTextMiss 1 false none
        = (PdfOutcome.segmented exTextMiss.length (buildSegments exTextMiss.length)
            (cacheKeyOf (some "u".data) "t".data exTextMiss) false,
           cachePdfContent [] 0 (cacheKeyOf (some "u".data) "t".data exTextMiss)
             exTextMiss false))) :=
  ⟨by decide,
   ingestion_segmentation_decision [] 0 (some "u".data) "t".data exTextMiss 1 false none
     (by decide)⟩

/-- The chunk loop covers the pages from its start page through the total
page count, in order and without repetition. -/
theorem chunkLoop_join (N : Nat) (d : Nat) : ∀ (i : Nat), N + 1 - i = d →
    (chunkLoop N i).flatten = List.range' i (N + 1 - i) := by
  induction d using Nat.strong_induction_on with
  | _ d IH =>
    intro i hd
    by_cases hle : i ≤ N
    · unfold chunkLoop
      rw [if_pos hle, List.flatten_cons]
      have hrec := IH (N + 1 - (i + PAGES_PER_REQUEST))
        (by simp only [PAGES_PER_REQUEST]; omega) (i + PAGES_PER_REQUEST) rfl
      rw [hrec]
      simp only [PAGES_PER_REQUEST]
      by_cases h45 : i + 4 ≤ N
      · rw [show min (i + (5 - 1)) N - i + 1 = 5 from by omega]
        rw [show N + 1 - i = (N + 1 - (i + 5)) + 5 from by omega]
        have hap := List.range'_append i 5 (N + 1 - (i + 5)) 1
        simp only [one_mul] at hap
        exact hap
      · rw [show min (i + (5 - 1)) N - i + 1 = N + 1 - i from by omega]
        rw [show N + 1 - (i + 5) = 0 from by omega]
        simp
    · unfold chunkLoop
      rw [if_neg hle]
      rw [show N + 1 - i = 0 from by omega]
      simp

/-- The chunk loop issues the ceiling of remaining pages over the page limit
many requests. -/
theorem chunkLoop_count (N : Nat) (d : Nat) : ∀ (i : Nat), N + 1 - i = d →
    (chunkLoop N i).length = (N + PAGES_PER_REQUEST - i) / PAGES_PER_REQUEST := by
  induction d using Nat.strong_induction_on with
  | _ d IH =>
    intro i hd
    by_cases hle : i ≤ N
    · unfold chunkLoop
      rw [if_pos hle, List.length_cons]
      rw [IH (N + 1 - (i + PAGES_PER_REQUEST))
        (by simp only [PAGES_PER_REQUEST]; omega) (i + PAGES_PER_REQUEST) rfl]
      simp only [PAGES_PER_REQUEST]
      omega
    · unfold chunkLoop
      rw [if_neg hle]
      simp only [List.length_nil, PAGES_PER_REQUEST]
      omega

/-- Every chunk the loop produces is nonempty and holds at most
PAGES_PER_REQUEST pages. -/
theorem chunkLoop_sizes (N : Nat) (d : Nat) : ∀ (i : Nat), N + 1 - i = d →
    ∀ ch ∈ chunkLoop N i, 0 < ch.length ∧ ch.length ≤ PAGES_PER_REQUEST := by
  induction d using Nat.strong_induction_on with
  | _ d IH =>
    intro i hd ch hch
    by_cases hle : i ≤ N
    · unfold chunkLoop at hch
      rw [if_pos hle] at hch
      rcases List.mem_cons.mp hch with hhead | htail
      · subst hhead
        rw [List.length_range']
        simp only [PAGES_PER_REQUEST]
        omega
      · exact IH (N + 1 - (i + PAGES_PER_REQUEST))
          (by simp only [PAGES_PER_REQUEST]; omega) (i + PAGES_PER_REQUEST) rfl ch htail
    · unfold chunkLoop at hch
      rw [if_neg hle] at hch
      simp at hch

/-- Sorting completion-ordered chunk results by chunk index restores the
canonical order: a permutation of indexed texts combines to the texts joined
in index order. -/
theorem combine_sorted (k : Nat) (texts : Nat → Str) (l : List (Nat × Str))
    (hperm : l.Perm ((List.range k).map (fun i => (i, texts i)))) :
    combineOcrResults l = joinSpace ((List.range k).map texts) := by
  unfold combineOcrResults
  have hsp : List.Sorted chunkIdxLe (List.insertionSort chunkIdxLe l) :=
    List.sorted_insertionSort _ _
  have hsperm : (List.insertionSort chunkIdxLe l).Perm
      ((List.range k).map (fun i => (i, texts i))) :=
    (List.perm_insertionSort _ _).trans hperm
  have hform : ∀ x ∈ List.insertionSort chunkIdxLe l, x.2 = texts x.1 := by
    intro x hx
    have hx2 : x ∈ (List.range k).map (fun i => (i, texts i)) := hsperm.mem_iff.mp hx
    obtain ⟨i, _, rfl⟩ := List.mem_map.mp hx2
    rfl
  have hkeys_perm : ((List.insertionSort chunkIdxLe l).map Prod.fst).Perm (List.range k) := by
    have h2 := hsperm.map Prod.fst
    rw [List.map_map] at h2
    rw [show (Prod.fst ∘ fun i : Nat => (i, texts i)) = (fun i : Nat => i) from rfl] at h2
    simpa using h2
  have hkeys_sorted : List.Sorted (· ≤ ·)
      ((List.insertionSort chunkIdxLe l).map Prod.fst) :=
    List.pairwise_map.mpr hsp
  have hkeys_eq : (List.insertionSort chunkIdxLe l).map Prod.fst = List.range k :=
    List.eq_of_perm_of_sorted hkeys_perm hkeys_sorted (List.sorted_le_range k)
  have hmap2 : (List.insertionSort chunkIdxLe l).map (fun r => r.2)
      = ((List.insertionSort chunkIdxLe l).map Prod.fst).map texts := by
    rw [List.map_map]
    exact List.map_congr_left (fun x hx => hform x hx)
  rw [hmap2, hkeys_eq]

/-- Claim C9: the OCR orchestrator partitions pages 1 through N into
contiguous groups of at most PAGES_PER_REQUEST pages covering every page
exactly once, issues the ceiling of N over the limit many requests, and the
reassembled text concatenates group texts in ascending group index whatever
the completion order was. -/
theorem ocr_fanout_partition_and_order (N : Nat) (texts : Nat → Str)
    (l : List (Nat × Str)) (_hN : 1 ≤ N)
    (hperm : l.Perm
      ((List.range ((N + PAGES_PER_REQUEST - 1) / PAGES_PER_REQUEST)).map
        (fun i => (i, texts i)))) :
    (ocrChunks N).flatten = List.range' 1 N ∧
    (∀ ch ∈ ocrChunks N, 0 < ch.length ∧ ch.length ≤ PAGES_PER_REQUEST) ∧
    (ocrChunks N).length = (N + PAGES_PER_REQUEST - 1) / PAGES_PER_REQUEST ∧
    combineOcrResults l
      = joinSpace
          ((List.range ((N + PAGES_PER_REQUEST - 1) / PAGES_PER_REQUEST)).map texts) := by
  refine ⟨?_, ?_, ?_, combine_sorted _ texts l hperm⟩
  · have h := chunkLoop_join N (N + 1 - 1) 1 rfl
    simpa [ocrChunks] using h
  · intro ch hch
    exact chunkLoop_sizes N (N + 1 - 1) 1 rfl ch (by simpa [ocrChunks] using hch)
  · have h := chunkLoop_count N (N + 1 - 1) 1 rfl
    simpa [ocrChunks] using h

/-- Witness for C9 at seven pages with the two chunk results completing out
of order. -/
theorem ocr_fanout_partition_and_order_witness :
    (1 ≤ 7 ∧
     [(1, "bbb".data), (0, "aaa".data)].Perm
       ((List.range ((7 + PAGES_PER_REQUEST - 1) / PAGES_PER_REQUEST)).map
         (fun i => (i, (if i = 0 then "aaa".data else "bbb".data))))) ∧
    ((ocrChunks 7).flatten = List.range' 1 7 ∧
     (∀ ch ∈ ocrChunks 7, 0 < ch.length ∧ ch.length ≤ PAGES_PER_REQUEST) ∧
     (ocrChunks 7).length = (7 + PAGES_PER_REQUEST - 1) / PAGES_PER_REQUEST ∧
     combineOcrResults [(1, "bbb".data), (0, "aaa".data)]
       = joinSpace
           ((List.range ((7 + PAGES_PER_REQUEST - 1) / PAGES_PER_REQUEST)).map
             (fun i => (if i = 0 then "aaa".data else "bbb".data)))) :=
  ⟨⟨by decide, by decide⟩,
   ocr_fanout_partition_and_order 7 (fun i => if i = 0 then "aaa".data else "bbb".data)
     [(1, "bbb".data), (0, "aaa".data)] (by decide) (by decide)⟩

end Quotely
